import Mathlib

/-!
Verification of the neighborhood-extraction and chain-simplification engine of the
showgraph repository (function `create_ego_graph_view` in `app/app_v2.py`).

The graph data model is a shallow embedding of a networkx `DiGraph`: a list of nodes
(insertion order), a duplicate-free list of directed edges, and a `weight` attribute
map on edges (`none` = attribute absent).  All operations below are translated from
the source: `nx.ego_graph` (breadth-first ball plus induced edges), `Graph.reverse`,
`nx.compose`, the `hide_sources` node removal, and the chain-simplification
fixed-point loop.
-/

namespace ShowGraph

/-- A directed simple graph in the style of a networkx `DiGraph`: node list,
edge list, and the `weight` edge attribute (`none` when the attribute is absent). -/
structure DiGraph (V : Type) where
  nodes : List V
  edges : List (V × V)
  w : V × V → Option Int

variable {V : Type} [DecidableEq V]

/-- The empty graph (as built by `nx.DiGraph()`). -/
def emptyG : DiGraph V := ⟨[], [], fun _ => none⟩

/-- `G.in_degree(v)`: number of edges whose target is `v`. -/
def DiGraph.inDeg (g : DiGraph V) (v : V) : Nat :=
  (g.edges.filter (fun e => decide (e.2 = v))).length

/-- `G.out_degree(v)`: number of edges whose source is `v`. -/
def DiGraph.outDeg (g : DiGraph V) (v : V) : Nat :=
  (g.edges.filter (fun e => decide (e.1 = v))).length

/-- `list(G.predecessors(n))[0]`: the first predecessor of `n` (default `n` itself,
only used when the in-degree is exactly 1). -/
def DiGraph.predOf (g : DiGraph V) (n : V) : V :=
  ((g.edges.filter (fun e => decide (e.2 = n))).map Prod.fst).headD n

/-- `list(G.successors(n))[0]`: the first successor of `n`. -/
def DiGraph.succOf (g : DiGraph V) (n : V) : V :=
  ((g.edges.filter (fun e => decide (e.1 = n))).map Prod.snd).headD n

/-- `G.add_node(v)`: insert a node if not already present. -/
def DiGraph.addNode (g : DiGraph V) (v : V) : DiGraph V :=
  if v ∈ g.nodes then g else ⟨v :: g.nodes, g.edges, g.w⟩

/-- `G.add_edge(p, s)` with no attributes: ensure both endpoints are nodes; if the
edge already exists its attributes are kept unchanged, otherwise it is created with
an empty attribute dict (so no `weight` attribute). -/
def DiGraph.addEdge (g : DiGraph V) (p s : V) : DiGraph V :=
  if (p, s) ∈ g.edges then (g.addNode p).addNode s
  else ⟨((g.addNode p).addNode s).nodes, (p, s) :: g.edges,
        fun e => if e = (p, s) then none else g.w e⟩

/-- `G.remove_node(n)`: drop the node and every incident edge. -/
def DiGraph.removeNode (g : DiGraph V) (n : V) : DiGraph V :=
  ⟨g.nodes.erase n, g.edges.filter (fun e => decide (e.1 ≠ n) && decide (e.2 ≠ n)), g.w⟩

/-- `G.remove_nodes_from(l)`. -/
def DiGraph.removeNodes (g : DiGraph V) (l : List V) : DiGraph V :=
  l.foldl DiGraph.removeNode g

/-- Wellformedness of a networkx graph: every edge endpoint is a node. -/
def WF (g : DiGraph V) : Prop := ∀ e ∈ g.edges, e.1 ∈ g.nodes ∧ e.2 ∈ g.nodes

instance (g : DiGraph V) : Decidable (WF g) :=
  List.decidableBAll _ g.edges

/-- Invariant satisfied by every networkx `DiGraph`: no duplicate nodes, no
duplicate (parallel) edges, and edges only between nodes. -/
def Inv (g : DiGraph V) : Prop := g.nodes.Nodup ∧ g.edges.Nodup ∧ WF g

instance (g : DiGraph V) : Decidable (Inv g) := by
  unfold Inv; infer_instance

/-- Order-preserving list union (used to model `nx.compose` node/edge unions). -/
def unionL {α : Type} [DecidableEq α] (l1 l2 : List α) : List α :=
  l1 ++ l2.filter (fun x => decide (x ∉ l1))

/-- One breadth-first expansion step: the set together with all successors of its
members (new nodes appended in discovery order). -/
def expandFwd (g : DiGraph V) (s : List V) : List V :=
  s ++ (((g.edges.filter (fun e => decide (e.1 ∈ s))).map Prod.snd).dedup.filter
    (fun x => decide (x ∉ s)))

/-- Nodes within `r` forward hops of `c` (the node set of `nx.ego_graph(G, c, r)`). -/
def ballFwd (g : DiGraph V) (c : V) : Nat → List V
  | 0 => [c]
  | r + 1 => expandFwd g (ballFwd g c r)

/-- `nx.ego_graph(G, c, radius=r, undirected=False)`: the subgraph induced on the
nodes within `r` forward hops of `c`. -/
def egoGraph (g : DiGraph V) (c : V) (r : Nat) : DiGraph V :=
  ⟨ballFwd g c r,
   g.edges.filter (fun e => decide (e.1 ∈ ballFwd g c r) && decide (e.2 ∈ ballFwd g c r)),
   g.w⟩

/-- `G.reverse()`: reverse every edge, keeping attributes. -/
def reverseG (g : DiGraph V) : DiGraph V :=
  ⟨g.nodes, g.edges.map Prod.swap, fun e => g.w e.swap⟩

/-- `nx.compose(g1, g2)`: union of nodes and edges; attributes of `g2` win. -/
def compose (g1 g2 : DiGraph V) : DiGraph V :=
  ⟨unionL g1.nodes g2.nodes, unionL g1.edges g2.edges,
   fun e => if e ∈ g2.edges then g2.w e else g1.w e⟩

/-- `out_ego_g` of the source: the forward ego graph when `out_radius_hops > 0`,
otherwise the fresh empty `nx.DiGraph()`. -/
def forwardEgo (g : DiGraph V) (c : V) (r : Int) : DiGraph V :=
  if 0 < r then egoGraph g c r.toNat else emptyG

/-- `in_ego_g` of the source: the ego graph of the reversed full graph when
`in_radius_hops > 0`, otherwise empty. -/
def backwardEgo (g : DiGraph V) (c : V) (r : Int) : DiGraph V :=
  forwardEgo (reverseG g) c r

/-- `nx.compose(out_ego_g, in_ego_g.reverse())` of line 182. -/
def combineEgo (g : DiGraph V) (c : V) (rOut rIn : Int) : DiGraph V :=
  compose (forwardEgo g c rOut) (reverseG (backwardEgo g c rIn))

/-- Lines 174-184 of `app_v2.py`: compose the forward ego graph with the reversed
backward ego graph, and add the bare focus node when the result is empty. -/
def extractCombined (g : DiGraph V) (c : V) (rOut rIn : Int) : DiGraph V :=
  if (combineEgo g c rOut rIn).nodes = [] then (combineEgo g c rOut rIn).addNode c
  else combineEgo g c rOut rIn

/-- Lines 186-188 of `app_v2.py`: remove every node of the view whose in-degree in
the FULL graph is zero, except the focus node, together with incident edges. -/
def hideSourcesStep (full : DiGraph V) (g : DiGraph V) (c : V) : DiGraph V :=
  g.removeNodes (g.nodes.filter (fun v => decide (full.inDeg v = 0) && decide (v ≠ c)))

/-- The candidacy test of lines 197-208: not the focus, in-degree 1, out-degree 1,
and collapsing would not create a self-loop. -/
def collapsible (g : DiGraph V) (c n : V) : Prop :=
  n ≠ c ∧ g.inDeg n = 1 ∧ g.outDeg n = 1 ∧ g.predOf n ≠ g.succOf n

instance (g : DiGraph V) (c n : V) : Decidable (collapsible g c n) := by
  unfold collapsible; infer_instance

/-- Lines 209-210: `combined_g.add_edge(pred, succ); combined_g.remove_node(n)`. -/
def collapseAt (g : DiGraph V) (n : V) : DiGraph V :=
  (g.addEdge (g.predOf n) (g.succOf n)).removeNode n

/-- One full scan of the node snapshot (the `for n in list(combined_g.nodes())`
loop); the boolean is `simplified_in_pass`. -/
def runPass (c : V) : List V → DiGraph V → DiGraph V × Bool
  | [], g => (g, false)
  | n :: ns, g =>
    if collapsible g c n then ((runPass c ns (collapseAt g n)).1, true)
    else runPass c ns g

/-- One scan over the current node snapshot. -/
def simplifyPass (c : V) (g : DiGraph V) : DiGraph V × Bool :=
  runPass c g.nodes g

/-- The `while True` loop of lines 191-214, with explicit fuel: repeat scans until
a scan performs zero collapses. -/
def simplifyLoop (c : V) : Nat → DiGraph V → DiGraph V
  | 0, g => g
  | fuel + 1, g =>
    match runPass c g.nodes g with
    | (g', true) => simplifyLoop c fuel g'
    | (g', false) => g'

/-- Chain simplification: the fixed-point loop run with enough fuel (each
successful collapse removes a node, so `|V| + 1` scans always suffice). -/
def simplify (c : V) (g : DiGraph V) : DiGraph V :=
  simplifyLoop c (g.nodes.length + 1) g

/-- The optional `hide_sources` stage. -/
def applyHide (b : Bool) (full : DiGraph V) (c : V) (g : DiGraph V) : DiGraph V :=
  if b then hideSourcesStep full g c else g

/-- The optional `simplify_chains` stage. -/
def applySimplify (b : Bool) (c : V) (g : DiGraph V) : DiGraph V :=
  if b then simplify c g else g

/-- The graph-content part of `create_ego_graph_view` (lines 167-214 of
`app_v2.py`): missing focus yields an empty view; otherwise extraction, optional
source hiding, then optional chain simplification. -/
def create_ego_graph_view (g : DiGraph V) (c : V) (rOut rIn : Int)
    (hideFlag simplifyFlag : Bool) : DiGraph V :=
  if c ∈ g.nodes then
    applySimplify simplifyFlag c (applyHide hideFlag g c (extractCombined g c rOut rIn))
  else emptyG

/-- `v` is reachable from `c` within at most `r` directed hops. -/
inductive ReachesLe (g : DiGraph V) (c : V) : Nat → V → Prop
  | refl (r : Nat) : ReachesLe g c r c
  | step {r : Nat} {u v : V} : ReachesLe g c r u → (u, v) ∈ g.edges →
      ReachesLe g c (r + 1) v

/-- Reachability along directed edges. -/
def Reaches (g : DiGraph V) (u v : V) : Prop :=
  Relation.ReflTransGen (fun a b => (a, b) ∈ g.edges) u v

/-- Modelled from the spec: the edge `e` "lies on a shortest forward path from the
focus" `c`, i.e. the shortest-path distance of its target is one more than that of
its source (equivalently: its source is reachable within some bound `k` while its
target is not). -/
def onShortestFwd (g : DiGraph V) (c : V) (e : V × V) : Prop :=
  e ∈ g.edges ∧ ∃ k, ReachesLe g c k e.1 ∧ ¬ ReachesLe g c k e.2

/-- Modelled from the spec: the edge `e` "lies on a shortest backward path to the
focus" `c` (a shortest path in the reversed graph through the reversed edge). -/
def onShortestBwd (g : DiGraph V) (c : V) (e : V × V) : Prop :=
  e ∈ g.edges ∧ ∃ k, ReachesLe (reverseG g) c k e.2 ∧ ¬ ReachesLe (reverseG g) c k e.1

/-- Modelled from the spec: the pipeline ordering asserted by the spec for
`hide_sources` ("after extraction/simplification but before final annotation"),
i.e. source hiding applied AFTER chain simplification; used only to compare with
the source ordering. -/
def create_ego_graph_view_spec_order (g : DiGraph V) (c : V) (rOut rIn : Int)
    (hideFlag simplifyFlag : Bool) : DiGraph V :=
  if c ∈ g.nodes then
    applyHide hideFlag g c (applySimplify simplifyFlag c (extractCombined g c rOut rIn))
  else emptyG

/-! ### Basic lemmas about the graph operations -/

lemma mem_unionL {α : Type} [DecidableEq α] {l1 l2 : List α} {x : α} :
    x ∈ unionL l1 l2 ↔ x ∈ l1 ∨ x ∈ l2 := by
  by_cases h : x ∈ l1 <;> simp [unionL, List.mem_filter, h]

lemma nodup_unionL {α : Type} [DecidableEq α] {l1 l2 : List α}
    (h1 : l1.Nodup) (h2 : l2.Nodup) : (unionL l1 l2).Nodup := by
  refine List.Nodup.append h1 (h2.filter _) ?_
  intro a ha hb
  rcases List.mem_filter.mp hb with ⟨-, hdec⟩
  simp only [decide_eq_true_eq] at hdec
  exact hdec ha

lemma addNode_edges (g : DiGraph V) (v : V) : (g.addNode v).edges = g.edges := by
  unfold DiGraph.addNode; split_ifs <;> rfl

lemma addNode_w (g : DiGraph V) (v : V) : (g.addNode v).w = g.w := by
  unfold DiGraph.addNode; split_ifs <;> rfl

lemma addNode_nodes_of_mem {g : DiGraph V} {v : V} (h : v ∈ g.nodes) :
    (g.addNode v).nodes = g.nodes := by
  unfold DiGraph.addNode; rw [if_pos h]

lemma mem_addNode_nodes {g : DiGraph V} {v x : V} :
    x ∈ (g.addNode v).nodes ↔ x = v ∨ x ∈ g.nodes := by
  unfold DiGraph.addNode
  split_ifs with h
  · constructor
    · exact Or.inr
    · rintro (rfl | hx); exact h; assumption
  · simp [List.mem_cons]

lemma addNode_nodes_nodup {g : DiGraph V} (h : g.nodes.Nodup) (v : V) :
    (g.addNode v).nodes.Nodup := by
  unfold DiGraph.addNode
  split_ifs with hv
  · exact h
  · exact List.nodup_cons.mpr ⟨hv, h⟩

lemma addEdge_nodes_of_mem {g : DiGraph V} {p s : V}
    (hp : p ∈ g.nodes) (hs : s ∈ g.nodes) :
    (g.addEdge p s).nodes = g.nodes := by
  have hs' : s ∈ (g.addNode p).nodes := by rw [addNode_nodes_of_mem hp]; exact hs
  unfold DiGraph.addEdge
  split_ifs <;> simp [addNode_nodes_of_mem hs', addNode_nodes_of_mem hp]

lemma mem_addEdge_edges {g : DiGraph V} {p s : V} {e : V × V} :
    e ∈ (g.addEdge p s).edges ↔ e = (p, s) ∨ e ∈ g.edges := by
  unfold DiGraph.addEdge
  split_ifs with h
  · rw [addNode_edges, addNode_edges]
    constructor
    · exact Or.inr
    · rintro (rfl | hx); exact h; assumption
  · simp [List.mem_cons]

lemma addEdge_edges_nodup {g : DiGraph V} (h : g.edges.Nodup) (p s : V) :
    (g.addEdge p s).edges.Nodup := by
  unfold DiGraph.addEdge
  split_ifs with hmem
  · rw [addNode_edges, addNode_edges]; exact h
  · exact List.nodup_cons.mpr ⟨hmem, h⟩

lemma addEdge_wf {g : DiGraph V} (h : WF g) (p s : V) : WF (g.addEdge p s) := by
  intro e he
  rcases mem_addEdge_edges.mp he with rfl | he'
  · constructor
    · unfold DiGraph.addEdge
      split_ifs <;> simp [mem_addNode_nodes]
    · unfold DiGraph.addEdge
      split_ifs <;> simp [mem_addNode_nodes]
  · have hn := h e he'
    have hsub : g.nodes ⊆ (g.addEdge p s).nodes := by
      intro x hx
      unfold DiGraph.addEdge
      split_ifs <;> simp [mem_addNode_nodes, hx]
    exact ⟨hsub hn.1, hsub hn.2⟩

lemma mem_removeNode_edges {g : DiGraph V} {n : V} {e : V × V} :
    e ∈ (g.removeNode n).edges ↔ e ∈ g.edges ∧ e.1 ≠ n ∧ e.2 ≠ n := by
  simp [DiGraph.removeNode, List.mem_filter]

lemma removeNode_nodes_nodup {g : DiGraph V} (h : g.nodes.Nodup) (n : V) :
    (g.removeNode n).nodes.Nodup := h.erase n

lemma removeNode_edges_nodup {g : DiGraph V} (h : g.edges.Nodup) (n : V) :
    (g.removeNode n).edges.Nodup := h.filter _

lemma removeNode_wf {g : DiGraph V} (h : WF g) (n : V) : WF (g.removeNode n) := by
  intro e he
  rcases mem_removeNode_edges.mp he with ⟨he', h1, h2⟩
  have hn := h e he'
  exact ⟨List.mem_erase_of_ne h1 |>.mpr hn.1, List.mem_erase_of_ne h2 |>.mpr hn.2⟩

lemma removeNode_inv {g : DiGraph V} (h : Inv g) (n : V) : Inv (g.removeNode n) :=
  ⟨removeNode_nodes_nodup h.1 n, removeNode_edges_nodup h.2.1 n, removeNode_wf h.2.2 n⟩

lemma mem_removeNodes_nodes {g : DiGraph V} {l : List V} {v : V}
    (hnd : g.nodes.Nodup) :
    v ∈ (g.removeNodes l).nodes ↔ v ∈ g.nodes ∧ v ∉ l := by
  induction l generalizing g with
  | nil => simp [DiGraph.removeNodes]
  | cons a l ih =>
    have : g.removeNodes (a :: l) = (g.removeNode a).removeNodes l := rfl
    rw [this, ih (removeNode_nodes_nodup hnd a)]
    have herase : v ∈ (g.removeNode a).nodes ↔ v ≠ a ∧ v ∈ g.nodes :=
      hnd.mem_erase_iff
    rw [herase]
    simp only [List.mem_cons]
    tauto

lemma mem_removeNodes_edges {g : DiGraph V} {l : List V} {e : V × V} :
    e ∈ (g.removeNodes l).edges ↔ e ∈ g.edges ∧ e.1 ∉ l ∧ e.2 ∉ l := by
  induction l generalizing g with
  | nil => simp [DiGraph.removeNodes]
  | cons a l ih =>
    have : g.removeNodes (a :: l) = (g.removeNode a).removeNodes l := rfl
    rw [this, ih, mem_removeNode_edges]
    simp only [List.mem_cons]
    tauto

lemma removeNodes_inv {g : DiGraph V} (h : Inv g) (l : List V) :
    Inv (g.removeNodes l) := by
  induction l generalizing g with
  | nil => exact h
  | cons a l ih => exact ih (removeNode_inv h a)

/-! ### Degree-one structure lemmas -/

lemma inDeg_one_spec {g : DiGraph V} {n : V} (h : g.inDeg n = 1) :
    (g.predOf n, n) ∈ g.edges ∧ ∀ e ∈ g.edges, e.2 = n → e = (g.predOf n, n) := by
  unfold DiGraph.inDeg at h
  obtain ⟨e, he⟩ := List.length_eq_one.mp h
  have hemem : e ∈ g.edges.filter (fun e => decide (e.2 = n)) := by
    rw [he]; exact List.mem_singleton_self e
  rcases List.mem_filter.mp hemem with ⟨he1, he2⟩
  simp only [decide_eq_true_eq] at he2
  have hpred : g.predOf n = e.1 := by
    unfold DiGraph.predOf
    rw [he]; rfl
  have hepair : e = (g.predOf n, n) := by
    rw [hpred, ← he2]
  constructor
  · rw [← hepair]; exact he1
  · intro e' he'1 he'2
    have : e' ∈ g.edges.filter (fun e => decide (e.2 = n)) :=
      List.mem_filter.mpr ⟨he'1, by simp [he'2]⟩
    rw [he] at this
    rw [List.mem_singleton.mp this, hepair]

lemma outDeg_one_spec {g : DiGraph V} {n : V} (h : g.outDeg n = 1) :
    (n, g.succOf n) ∈ g.edges ∧ ∀ e ∈ g.edges, e.1 = n → e = (n, g.succOf n) := by
  unfold DiGraph.outDeg at h
  obtain ⟨e, he⟩ := List.length_eq_one.mp h
  have hemem : e ∈ g.edges.filter (fun e => decide (e.1 = n)) := by
    rw [he]; exact List.mem_singleton_self e
  rcases List.mem_filter.mp hemem with ⟨he1, he2⟩
  simp only [decide_eq_true_eq] at he2
  have hsucc : g.succOf n = e.2 := by
    unfold DiGraph.succOf
    rw [he]; rfl
  have hepair : e = (n, g.succOf n) := by
    rw [hsucc, ← he2]
  constructor
  · rw [← hepair]; exact he1
  · intro e' he'1 he'2
    have : e' ∈ g.edges.filter (fun e => decide (e.1 = n)) :=
      List.mem_filter.mpr ⟨he'1, by simp [he'2]⟩
    rw [he] at this
    rw [List.mem_singleton.mp this, hepair]

/-- A degree-(1,1) node whose predecessor and successor differ is the endpoint of
neither of its two incident edges: `pred ≠ n` and `succ ≠ n`. -/
lemma collapse_ne {g : DiGraph V} {n : V} (hin : g.inDeg n = 1)
    (hout : g.outDeg n = 1) (hps : g.predOf n ≠ g.succOf n) :
    g.predOf n ≠ n ∧ g.succOf n ≠ n := by
  obtain ⟨hpin, hpuniq⟩ := inDeg_one_spec hin
  obtain ⟨hsin, hsuniq⟩ := outDeg_one_spec hout
  constructor
  · intro hpn
    have : (g.predOf n, n) = (n, g.succOf n) := by
      apply hsuniq _ hpin
      exact hpn
    have hn : n = g.succOf n := congrArg Prod.snd this
    have hp : g.predOf n = n := congrArg Prod.fst this
    exact hps (hp.trans hn)
  · intro hsn
    have h2 : (n, g.succOf n) = (g.predOf n, n) := by
      apply hpuniq _ hsin
      exact hsn
    have hp : n = g.predOf n := congrArg Prod.fst h2
    refine hps ?_
    rw [← hp, hsn]

/-! ### Collapse-step lemmas -/

lemma mem_collapseAt_edges {g : DiGraph V} {n : V} {e : V × V} :
    e ∈ (collapseAt g n).edges ↔
      (e = (g.predOf n, g.succOf n) ∨ e ∈ g.edges) ∧ e.1 ≠ n ∧ e.2 ≠ n := by
  unfold collapseAt
  rw [mem_removeNode_edges, mem_addEdge_edges]

lemma collapseAt_nodes {g : DiGraph V} {n : V} (hwf : WF g)
    (hin : g.inDeg n = 1) (hout : g.outDeg n = 1) :
    (collapseAt g n).nodes = g.nodes.erase n ∧ n ∈ g.nodes := by
  obtain ⟨hpin, -⟩ := inDeg_one_spec hin
  obtain ⟨hsin, -⟩ := outDeg_one_spec hout
  have hp : g.predOf n ∈ g.nodes := (hwf _ hpin).1
  have hs : g.succOf n ∈ g.nodes := (hwf _ hsin).2
  have hn : n ∈ g.nodes := (hwf _ hpin).2
  constructor
  · unfold collapseAt DiGraph.removeNode
    rw [addEdge_nodes_of_mem hp hs]
  · exact hn

lemma collapseAt_inv {g : DiGraph V} {n : V} (hInv : Inv g)
    (hin : g.inDeg n = 1) (hout : g.outDeg n = 1) : Inv (collapseAt g n) := by
  obtain ⟨hnd, hed, hwf⟩ := hInv
  refine ⟨?_, ?_, ?_⟩
  · rw [(collapseAt_nodes hwf hin hout).1]
    exact hnd.erase n
  · exact removeNode_edges_nodup (addEdge_edges_nodup hed _ _) n
  · exact removeNode_wf (addEdge_wf hwf _ _) n

lemma not_mem_collapseAt_nodes {g : DiGraph V} {n : V} (hInv : Inv g)
    (hin : g.inDeg n = 1) (hout : g.outDeg n = 1) :
    n ∉ (collapseAt g n).nodes := by
  rw [(collapseAt_nodes hInv.2.2 hin hout).1]
  exact hInv.1.not_mem_erase

/-! ### Reachability -/

lemma rtg_of_rel_rtg {α : Type} {r s : α → α → Prop}
    (h : ∀ a b, r a b → Relation.ReflTransGen s a b) {u v : α}
    (huv : Relation.ReflTransGen r u v) : Relation.ReflTransGen s u v := by
  induction huv with
  | refl => exact Relation.ReflTransGen.refl
  | tail _ hstep ih => exact Relation.ReflTransGen.trans ih (h _ _ hstep)

lemma rtg_map_rel {α : Type} {r s : α → α → Prop} (f : α → α)
    (h : ∀ a b, r a b → Relation.ReflTransGen s (f a) (f b)) {u v : α}
    (huv : Relation.ReflTransGen r u v) :
    Relation.ReflTransGen s (f u) (f v) := by
  induction huv with
  | refl => exact Relation.ReflTransGen.refl
  | tail _ hstep ih => exact Relation.ReflTransGen.trans ih (h _ _ hstep)

/-- Collapsing a pass-through node preserves reachability between all remaining
nodes, in both directions. -/
lemma collapse_reaches {g : DiGraph V} {n : V} (hin : g.inDeg n = 1)
    (hout : g.outDeg n = 1) (hps : g.predOf n ≠ g.succOf n) {u v : V}
    (hu : u ≠ n) (hv : v ≠ n) :
    Reaches (collapseAt g n) u v ↔ Reaches g u v := by
  obtain ⟨hpin, hpuniq⟩ := inDeg_one_spec hin
  obtain ⟨hsin, hsuniq⟩ := outDeg_one_spec hout
  obtain ⟨hpn, hsn⟩ := collapse_ne hin hout hps
  have hpsmem : (g.predOf n, g.succOf n) ∈ (collapseAt g n).edges :=
    mem_collapseAt_edges.mpr ⟨Or.inl rfl, hpn, hsn⟩
  constructor
  · intro hr
    refine rtg_of_rel_rtg (fun a b hab => ?_) hr
    rcases (mem_collapseAt_edges.mp hab).1 with heq | hmem
    · have h1 : a = g.predOf n := congrArg Prod.fst heq
      have h2 : b = g.succOf n := congrArg Prod.snd heq
      subst h1; subst h2
      exact Relation.ReflTransGen.tail (Relation.ReflTransGen.single hpin) hsin
    · exact Relation.ReflTransGen.single hmem
  · intro hr
    unfold Reaches at hr ⊢
    have hstep : ∀ a b, (a, b) ∈ g.edges →
        Relation.ReflTransGen (fun x y => (x, y) ∈ (collapseAt g n).edges)
          (if a = n then g.succOf n else a) (if b = n then g.succOf n else b) := by
      intro a b hab
      by_cases han : a = n
      · have hb : (a, b) = (n, g.succOf n) := hsuniq _ hab han
        have hbs : b = g.succOf n := congrArg Prod.snd hb
        rw [han, hbs, if_pos rfl, if_neg hsn]
      · by_cases hbn : b = n
        · have ha : (a, b) = (g.predOf n, n) := hpuniq _ hab hbn
          have hap : a = g.predOf n := congrArg Prod.fst ha
          rw [if_neg han, if_pos hbn, hap]
          exact Relation.ReflTransGen.single hpsmem
        · rw [if_neg han, if_neg hbn]
          exact Relation.ReflTransGen.single
            (mem_collapseAt_edges.mpr ⟨Or.inr hab, han, hbn⟩)
    have key := rtg_map_rel (fun a => if a = n then g.succOf n else a) hstep hr
    simpa [if_neg hu, if_neg hv] using key

/-! ### Properties of one simplification scan and of the fixed-point loop -/

lemma runPass_spec (c : V) (ns : List V) (g : DiGraph V) (hInv : Inv g) :
    Inv (runPass c ns g).1 ∧
    (runPass c ns g).1.nodes ⊆ g.nodes ∧
    (runPass c ns g).1.nodes.length ≤ g.nodes.length ∧
    ((runPass c ns g).2 = true → (runPass c ns g).1.nodes.length < g.nodes.length) ∧
    (∀ u v, u ∈ (runPass c ns g).1.nodes → v ∈ (runPass c ns g).1.nodes →
      (Reaches (runPass c ns g).1 u v ↔ Reaches g u v)) := by
  induction ns generalizing g with
  | nil =>
    simp only [runPass]
    exact ⟨hInv, fun x h => h, le_refl _, by simp, fun u v _ _ => trivial⟩
  | cons n ns ih =>
    by_cases hcol : collapsible g c n
    · simp only [runPass, if_pos hcol]
      obtain ⟨hne, hin, hout, hps⟩ := hcol
      have hInv' := collapseAt_inv hInv hin hout
      obtain ⟨hcn_eq, hn_mem⟩ := collapseAt_nodes hInv.2.2 hin hout
      obtain ⟨ih1, ih2, ih3, ih4, ih5⟩ := ih (collapseAt g n) hInv'
      have hsub : (collapseAt g n).nodes ⊆ g.nodes := by
        rw [hcn_eq]; exact List.erase_subset n g.nodes
      have hlen : (collapseAt g n).nodes.length < g.nodes.length := by
        rw [hcn_eq, List.length_erase_of_mem hn_mem]
        have : 0 < g.nodes.length := List.length_pos.mpr (List.ne_nil_of_mem hn_mem)
        omega
      have hnn : n ∉ (collapseAt g n).nodes :=
        not_mem_collapseAt_nodes hInv hin hout
      refine ⟨ih1, ?_, ?_, ?_, ?_⟩
      · exact fun x hx => hsub (ih2 hx)
      · exact le_trans ih3 (le_of_lt hlen)
      · intro _
        exact lt_of_le_of_lt ih3 hlen
      · intro u v hu hv
        have hun : u ≠ n := fun h => hnn (h ▸ ih2 hu)
        have hvn : v ≠ n := fun h => hnn (h ▸ ih2 hv)
        rw [ih5 u v hu hv]
        exact collapse_reaches hin hout hps hun hvn
    · simp only [runPass, if_neg hcol]
      exact ih g hInv

lemma runPass_flag_false {c : V} {ns : List V} {g : DiGraph V}
    (h : (runPass c ns g).2 = false) : (runPass c ns g).1 = g := by
  induction ns generalizing g with
  | nil => rfl
  | cons n ns ih =>
    by_cases hcol : collapsible g c n
    · simp [runPass, if_pos hcol] at h
    · simp only [runPass, if_neg hcol] at h ⊢
      exact ih h

lemma loop_spec (c : V) (fuel : Nat) (g : DiGraph V) (hInv : Inv g) :
    Inv (simplifyLoop c fuel g) ∧
    (simplifyLoop c fuel g).nodes ⊆ g.nodes ∧
    (∀ u v, u ∈ (simplifyLoop c fuel g).nodes → v ∈ (simplifyLoop c fuel g).nodes →
      (Reaches (simplifyLoop c fuel g) u v ↔ Reaches g u v)) := by
  induction fuel generalizing g with
  | zero =>
    simp only [simplifyLoop]
    exact ⟨hInv, fun x h => h, fun u v _ _ => trivial⟩
  | succ fuel ih =>
    obtain ⟨h1, h2, h3, h4, h5⟩ := runPass_spec c g.nodes g hInv
    rcases hrp : runPass c g.nodes g with ⟨g', flag⟩
    rw [hrp] at h1 h2 h5
    simp only [simplifyLoop, hrp]
    cases flag
    · exact ⟨h1, h2, h5⟩
    · obtain ⟨i1, i2, i3⟩ := ih g' h1
      refine ⟨i1, fun x hx => h2 (i2 hx), ?_⟩
      intro u v hu hv
      rw [i3 u v hu hv]
      exact h5 u v (i2 hu) (i2 hv)

lemma loop_fixpoint (c : V) (fuel : Nat) (g : DiGraph V) (hInv : Inv g)
    (hfuel : g.nodes.length < fuel) :
    (runPass c (simplifyLoop c fuel g).nodes (simplifyLoop c fuel g)).2 = false := by
  induction fuel generalizing g with
  | zero => exact absurd hfuel (Nat.not_lt_zero _)
  | succ fuel ih =>
    obtain ⟨h1, h2, h3, h4, h5⟩ := runPass_spec c g.nodes g hInv
    rcases hrp : runPass c g.nodes g with ⟨g', flag⟩
    rw [hrp] at h1 h4
    simp only [simplifyLoop, hrp]
    cases flag
    · have hg : g' = g := by
        have h0 : (runPass c g.nodes g).1 = g := runPass_flag_false (by rw [hrp])
        rw [hrp] at h0
        exact h0
      rw [hg, hrp]
    · have hlt : g'.nodes.length < g.nodes.length := h4 rfl
      exact ih g' h1 (by omega)

/-! ### Breadth-first ball and extraction lemmas -/

lemma reachesLe_mono {g : DiGraph V} {c u : V} {r r' : Nat}
    (h : ReachesLe g c r u) (hrr : r ≤ r') : ReachesLe g c r' u := by
  induction h generalizing r' with
  | refl => exact ReachesLe.refl r'
  | step hle hedge ih =>
    cases r' with
    | zero => exact (Nat.not_succ_le_zero _ hrr).elim
    | succ m => exact ReachesLe.step (ih (Nat.succ_le_succ_iff.mp hrr)) hedge

lemma ballFwd_sound {g : DiGraph V} {c : V} {r : Nat} {v : V}
    (h : v ∈ ballFwd g c r) : ReachesLe g c r v := by
  induction r generalizing v with
  | zero =>
    rw [List.mem_singleton.mp h]
    exact ReachesLe.refl 0
  | succ r ih =>
    rcases List.mem_append.mp h with hprev | hnew
    · exact reachesLe_mono (ih hprev) (Nat.le_succ r)
    · rcases List.mem_filter.mp hnew with ⟨hmap, -⟩
      rcases List.mem_map.mp (List.mem_dedup.mp hmap) with ⟨e, hef, rfl⟩
      rcases List.mem_filter.mp hef with ⟨hee, hsrc⟩
      simp only [decide_eq_true_eq] at hsrc
      exact (ih hsrc).step hee

lemma ballFwd_nodup (g : DiGraph V) (c : V) (r : Nat) : (ballFwd g c r).Nodup := by
  induction r with
  | zero => exact List.nodup_singleton c
  | succ r ih =>
    refine List.Nodup.append ih ((List.nodup_dedup _).filter _) ?_
    intro a ha hb
    rcases List.mem_filter.mp hb with ⟨-, hdec⟩
    simp only [decide_eq_true_eq] at hdec
    exact hdec ha

lemma mem_egoGraph_edges {g : DiGraph V} {c : V} {r : Nat} {e : V × V} :
    e ∈ (egoGraph g c r).edges ↔
      e ∈ g.edges ∧ e.1 ∈ ballFwd g c r ∧ e.2 ∈ ballFwd g c r := by
  simp [egoGraph, List.mem_filter]

lemma egoGraph_wf (g : DiGraph V) (c : V) (r : Nat) : WF (egoGraph g c r) := by
  intro e he
  rcases mem_egoGraph_edges.mp he with ⟨-, h1, h2⟩
  exact ⟨h1, h2⟩

lemma mem_reverseG_edges {g : DiGraph V} {e : V × V} :
    e ∈ (reverseG g).edges ↔ e.swap ∈ g.edges := by
  unfold reverseG
  constructor
  · intro h
    rcases List.mem_map.mp h with ⟨a, ha, rfl⟩
    simpa using ha
  · intro h
    exact List.mem_map.mpr ⟨e.swap, h, Prod.swap_swap e⟩

lemma reverseG_nodes (g : DiGraph V) : (reverseG g).nodes = g.nodes := rfl

lemma reverseG_wf {g : DiGraph V} (h : WF g) : WF (reverseG g) := by
  intro e he
  have := h e.swap (mem_reverseG_edges.mp he)
  exact ⟨this.2, this.1⟩

lemma reverseG_edges_nodup {g : DiGraph V} (h : g.edges.Nodup) :
    (reverseG g).edges.Nodup := h.map Prod.swap_injective

lemma emptyG_props : (emptyG : DiGraph V).nodes = [] ∧ (emptyG : DiGraph V).edges = [] ∧
    Inv (emptyG : DiGraph V) := by
  refine ⟨rfl, rfl, List.nodup_nil, List.nodup_nil, ?_⟩
  intro e he
  cases he

lemma forwardEgo_wf (g : DiGraph V) (c : V) (r : Int) : WF (forwardEgo g c r) := by
  unfold forwardEgo
  split_ifs
  · exact egoGraph_wf g c _
  · exact emptyG_props.2.2.2.2

lemma forwardEgo_nodes_nodup (g : DiGraph V) (c : V) (r : Int) :
    (forwardEgo g c r).nodes.Nodup := by
  unfold forwardEgo
  split_ifs
  · exact ballFwd_nodup g c _
  · exact List.nodup_nil

lemma forwardEgo_edges_nodup {g : DiGraph V} (h : g.edges.Nodup) (c : V) (r : Int) :
    (forwardEgo g c r).edges.Nodup := by
  unfold forwardEgo
  split_ifs
  · exact h.filter _
  · exact List.nodup_nil

/-- Membership in the node set of the optional forward ego graph yields bounded
forward reachability. -/
lemma forwardEgo_reach {g : DiGraph V} {c : V} {r : Int} {v : V}
    (h : v ∈ (forwardEgo g c r).nodes) : ReachesLe g c r.toNat v := by
  unfold forwardEgo at h
  split_ifs at h
  · exact ballFwd_sound h
  · cases h

lemma mem_compose_nodes {g1 g2 : DiGraph V} {v : V} :
    v ∈ (compose g1 g2).nodes ↔ v ∈ g1.nodes ∨ v ∈ g2.nodes := mem_unionL

lemma mem_compose_edges {g1 g2 : DiGraph V} {e : V × V} :
    e ∈ (compose g1 g2).edges ↔ e ∈ g1.edges ∨ e ∈ g2.edges := mem_unionL

lemma compose_wf {g1 g2 : DiGraph V} (h1 : WF g1) (h2 : WF g2) :
    WF (compose g1 g2) := by
  intro e he
  rcases mem_compose_edges.mp he with h | h
  · exact ⟨mem_compose_nodes.mpr (Or.inl (h1 e h).1),
      mem_compose_nodes.mpr (Or.inl (h1 e h).2)⟩
  · exact ⟨mem_compose_nodes.mpr (Or.inr (h2 e h).1),
      mem_compose_nodes.mpr (Or.inr (h2 e h).2)⟩

lemma extract_nodes_sub {g : DiGraph V} {c : V} {rOut rIn : Int} {v : V}
    (h : v ∈ (extractCombined g c rOut rIn).nodes) :
    v ∈ (forwardEgo g c rOut).nodes ∨ v ∈ (backwardEgo g c rIn).nodes ∨ v = c := by
  unfold extractCombined combineEgo at h
  split_ifs at h with hemp
  · rcases mem_addNode_nodes.mp h with rfl | h'
    · exact Or.inr (Or.inr rfl)
    · rw [hemp] at h'
      cases h'
  · rcases mem_compose_nodes.mp h with h' | h'
    · exact Or.inl h'
    · rw [reverseG_nodes] at h'
      exact Or.inr (Or.inl h')

lemma extract_wf (g : DiGraph V) (c : V) (rOut rIn : Int) :
    WF (extractCombined g c rOut rIn) := by
  unfold extractCombined combineEgo
  have hwf : WF (compose (forwardEgo g c rOut) (reverseG (backwardEgo g c rIn))) :=
    compose_wf (forwardEgo_wf g c rOut) (reverseG_wf (forwardEgo_wf _ c rIn))
  split_ifs with hemp
  · intro e he
    rw [addNode_edges] at he
    have := hwf e he
    constructor
    · exact mem_addNode_nodes.mpr (Or.inr this.1)
    · exact mem_addNode_nodes.mpr (Or.inr this.2)
  · exact hwf

lemma extract_nodes_nodup (g : DiGraph V) (c : V) (rOut rIn : Int) :
    (extractCombined g c rOut rIn).nodes.Nodup := by
  unfold extractCombined combineEgo
  have hnd : (compose (forwardEgo g c rOut) (reverseG (backwardEgo g c rIn))).nodes.Nodup :=
    nodup_unionL (forwardEgo_nodes_nodup g c rOut) (forwardEgo_nodes_nodup _ c rIn)
  split_ifs
  · exact addNode_nodes_nodup hnd c
  · exact hnd

lemma extract_edges_nodup {g : DiGraph V} (h : g.edges.Nodup) (c : V) (rOut rIn : Int) :
    (extractCombined g c rOut rIn).edges.Nodup := by
  unfold extractCombined combineEgo
  have hnd : (compose (forwardEgo g c rOut) (reverseG (backwardEgo g c rIn))).edges.Nodup :=
    nodup_unionL (forwardEgo_edges_nodup h c rOut)
      (reverseG_edges_nodup (forwardEgo_edges_nodup (reverseG_edges_nodup h) c rIn))
  split_ifs
  · rw [addNode_edges]
    exact hnd
  · exact hnd

lemma extract_inv {g : DiGraph V} (h : Inv g) (c : V) (rOut rIn : Int) :
    Inv (extractCombined g c rOut rIn) :=
  ⟨extract_nodes_nodup g c rOut rIn, extract_edges_nodup h.2.1 c rOut rIn,
   extract_wf g c rOut rIn⟩

lemma hideSourcesStep_inv {full g : DiGraph V} (h : Inv g) (c : V) :
    Inv (hideSourcesStep full g c) :=
  removeNodes_inv h _

lemma applyHide_inv {b : Bool} {full g : DiGraph V} {c : V} (h : Inv g) :
    Inv (applyHide b full c g) := by
  unfold applyHide
  split_ifs
  · exact hideSourcesStep_inv h c
  · exact h

lemma removeNodes_nodes_sub (g : DiGraph V) (l : List V) :
    (g.removeNodes l).nodes ⊆ g.nodes := by
  induction l generalizing g with
  | nil => exact fun x h => h
  | cons a l ih =>
    have heq : g.removeNodes (a :: l) = (g.removeNode a).removeNodes l := rfl
    rw [heq]
    intro x hx
    exact List.erase_subset a g.nodes (ih (g.removeNode a) hx)

lemma applyHide_nodes_sub {b : Bool} {full g : DiGraph V} {c : V} :
    (applyHide b full c g).nodes ⊆ g.nodes := by
  unfold applyHide
  split_ifs
  · exact removeNodes_nodes_sub g _
  · exact fun x h => h

/-! ### View-level composition lemmas -/

lemma simplify_inv {c : V} {g : DiGraph V} (h : Inv g) : Inv (simplify c g) :=
  (loop_spec c (g.nodes.length + 1) g h).1

lemma simplify_nodes_sub {c : V} {g : DiGraph V} (h : Inv g) :
    (simplify c g).nodes ⊆ g.nodes :=
  (loop_spec c (g.nodes.length + 1) g h).2.1

lemma applySimplify_inv {b : Bool} {c : V} {g : DiGraph V} (h : Inv g) :
    Inv (applySimplify b c g) := by
  unfold applySimplify
  split_ifs
  · exact simplify_inv h
  · exact h

lemma applySimplify_nodes_sub {b : Bool} {c : V} {g : DiGraph V} (h : Inv g) :
    (applySimplify b c g).nodes ⊆ g.nodes := by
  unfold applySimplify
  split_ifs
  · exact simplify_nodes_sub h
  · exact fun x hx => hx

lemma view_inv {G : DiGraph V} (hG : Inv G) (c : V) (rOut rIn : Int)
    (hf sf : Bool) : Inv (create_ego_graph_view G c rOut rIn hf sf) := by
  unfold create_ego_graph_view
  split_ifs
  · exact applySimplify_inv (applyHide_inv (extract_inv hG c rOut rIn))
  · exact emptyG_props.2.2

/-- A non-positive radius behaves exactly like radius 0. -/
lemma forwardEgo_clamp (g : DiGraph V) (c : V) (r : Int) :
    forwardEgo g c r = forwardEgo g c (max r 0) := by
  unfold forwardEgo
  by_cases h : 0 < r
  · rw [if_pos h, if_pos (lt_max_of_lt_left h), max_eq_left h.le]
  · have h0 : max r 0 = 0 := max_eq_right (not_lt.mp h)
    rw [if_neg h, h0, if_neg (lt_irrefl (0 : Int))]

lemma extract_clamp (g : DiGraph V) (c : V) (rOut rIn : Int) :
    extractCombined g c rOut rIn = extractCombined g c (max rOut 0) (max rIn 0) := by
  unfold extractCombined combineEgo backwardEgo
  rw [forwardEgo_clamp g c rOut, forwardEgo_clamp (reverseG g) c rIn]

/-! ### Membership characterizations of the extracted subgraph and hide step -/

lemma mem_forwardEgo_edges {g : DiGraph V} {c : V} {r : Int} {e : V × V} :
    e ∈ (forwardEgo g c r).edges ↔
      e ∈ g.edges ∧ e.1 ∈ (forwardEgo g c r).nodes ∧ e.2 ∈ (forwardEgo g c r).nodes := by
  unfold forwardEgo
  split_ifs
  · exact mem_egoGraph_edges
  · simp [emptyG]

lemma mem_backPart_edges {g : DiGraph V} {c : V} {r : Int} {e : V × V} :
    e ∈ (reverseG (backwardEgo g c r)).edges ↔
      e ∈ g.edges ∧ e.1 ∈ (backwardEgo g c r).nodes ∧ e.2 ∈ (backwardEgo g c r).nodes := by
  rw [mem_reverseG_edges]
  unfold backwardEgo
  rw [mem_forwardEgo_edges, mem_reverseG_edges]
  simp only [Prod.fst_swap, Prod.snd_swap, Prod.swap_swap]
  tauto

lemma mem_extract_edges (g : DiGraph V) (c : V) (rOut rIn : Int) (e : V × V) :
    e ∈ (extractCombined g c rOut rIn).edges ↔
      e ∈ g.edges ∧
        ((e.1 ∈ (forwardEgo g c rOut).nodes ∧ e.2 ∈ (forwardEgo g c rOut).nodes) ∨
         (e.1 ∈ (backwardEgo g c rIn).nodes ∧ e.2 ∈ (backwardEgo g c rIn).nodes)) := by
  unfold extractCombined
  have hcomb : e ∈ (combineEgo g c rOut rIn).edges ↔
      e ∈ g.edges ∧
        ((e.1 ∈ (forwardEgo g c rOut).nodes ∧ e.2 ∈ (forwardEgo g c rOut).nodes) ∨
         (e.1 ∈ (backwardEgo g c rIn).nodes ∧ e.2 ∈ (backwardEgo g c rIn).nodes)) := by
    unfold combineEgo
    rw [mem_compose_edges, mem_forwardEgo_edges, mem_backPart_edges]
    tauto
  split_ifs
  · rw [addNode_edges]
    exact hcomb
  · exact hcomb

lemma mem_hideStep_nodes {full g : DiGraph V} {c v : V} (hnd : g.nodes.Nodup) :
    v ∈ (hideSourcesStep full g c).nodes ↔
      v ∈ g.nodes ∧ (v = c ∨ full.inDeg v ≠ 0) := by
  unfold hideSourcesStep
  rw [mem_removeNodes_nodes hnd]
  simp only [List.mem_filter, Bool.and_eq_true, decide_eq_true_eq]
  tauto

lemma mem_hideStep_edges {full g : DiGraph V} {c : V} {e : V × V} (hwf : WF g) :
    e ∈ (hideSourcesStep full g c).edges ↔
      e ∈ g.edges ∧ (e.1 = c ∨ full.inDeg e.1 ≠ 0) ∧ (e.2 = c ∨ full.inDeg e.2 ≠ 0) := by
  unfold hideSourcesStep
  rw [mem_removeNodes_edges]
  simp only [List.mem_filter, Bool.and_eq_true, decide_eq_true_eq]
  constructor
  · rintro ⟨he, h1, h2⟩
    have hN := hwf e he
    exact ⟨he, by tauto, by tauto⟩
  · rintro ⟨he, h1, h2⟩
    exact ⟨he, by tauto, by tauto⟩

/-! ### Small auxiliary reachability lemmas used by counterexamples -/

lemma reachesLe_zero {g : DiGraph V} {c v : V} (h : ReachesLe g c 0 v) : v = c := by
  cases h
  rfl

lemma reachesLe_source_sink {g : DiGraph V} {c : V} {k : Nat} {v : V}
    (hns : ∀ e ∈ g.edges, e.1 ≠ c) (h : ReachesLe g c k v) : v = c := by
  induction h with
  | refl => rfl
  | step hle hedge ih => exact absurd ih (hns _ hedge)

/-! ### Concrete graphs used in scenarios and counterexamples -/

/-- The five-node chain A→B→C→D→E of the spec scenarios (A=0, ..., E=4). -/
def exChain : DiGraph Nat := ⟨[0, 1, 2, 3, 4], [(0, 1), (1, 2), (2, 3), (3, 4)], fun _ => none⟩

/-- Chain with a bypass edge: 0→1→2→3 plus 1→3. -/
def exBypass : DiGraph Nat := ⟨[0, 1, 2, 3], [(0, 1), (1, 2), (2, 3), (1, 3)], fun _ => none⟩

/-- Two distance-1 nodes joined both ways: 0→1, 0→2, 1→2, 2→1. -/
def exTriangle : DiGraph Nat := ⟨[0, 1, 2], [(0, 1), (0, 2), (1, 2), (2, 1)], fun _ => none⟩

/-- A two-edge chain with weights 5 and 7. -/
def exWeighted : DiGraph Nat :=
  ⟨[0, 1, 2], [(0, 1), (1, 2)],
   fun e => if e = (0, 1) then some 5 else if e = (1, 2) then some 7 else none⟩

/-- A chain 1→2→3→0 ending in the focus 0, whose head 1 has no incoming edge. -/
def exSourceChain : DiGraph Nat := ⟨[0, 1, 2, 3], [(1, 2), (2, 3), (3, 0)], fun _ => none⟩

/-- A single edge 0→1. -/
def exSmall : DiGraph Nat := ⟨[0, 1], [(0, 1)], fun _ => none⟩

/-! ### Claim C1 -/

/-- Claim C1: for every (wellformed) graph, every focus node present in the graph
and radii ≥ 0, every node of the view produced by `create_ego_graph_view` is within
`rOut` forward hops of the focus, or within `rIn` backward hops of the focus, or is
the focus itself. -/
theorem claim1_nodes_within_radius (G : DiGraph V) (c : V) (rOut rIn : Int)
    (hf sf : Bool) (hG : Inv G) (hc : c ∈ G.nodes) (hro : 0 ≤ rOut) (hri : 0 ≤ rIn) :
    ∀ v ∈ (create_ego_graph_view G c rOut rIn hf sf).nodes,
      ReachesLe G c rOut.toNat v ∨ ReachesLe (reverseG G) c rIn.toNat v ∨ v = c := by
  intro v hv
  unfold create_ego_graph_view at hv
  rw [if_pos hc] at hv
  have hEinv : Inv (extractCombined G c rOut rIn) := extract_inv hG c rOut rIn
  have hHinv : Inv (applyHide hf G c (extractCombined G c rOut rIn)) :=
    applyHide_inv hEinv
  have h1 : v ∈ (applyHide hf G c (extractCombined G c rOut rIn)).nodes :=
    applySimplify_nodes_sub hHinv hv
  have h2 : v ∈ (extractCombined G c rOut rIn).nodes := applyHide_nodes_sub h1
  rcases extract_nodes_sub h2 with h | h | h
  · exact Or.inl (forwardEgo_reach h)
  · exact Or.inr (Or.inl (forwardEgo_reach h))
  · exact Or.inr (Or.inr h)

theorem claim1_witness :
    Inv exChain ∧ 2 ∈ exChain.nodes ∧ 0 ≤ (1 : Int) ∧ 0 ≤ (1 : Int) ∧
    (∀ v ∈ (create_ego_graph_view exChain 2 1 1 false false).nodes,
       ReachesLe exChain 2 (1 : Int).toNat v ∨
       ReachesLe (reverseG exChain) 2 (1 : Int).toNat v ∨ v = 2) :=
  ⟨by decide, by decide, by decide, by decide,
   claim1_nodes_within_radius exChain 2 1 1 false false (by decide) (by decide)
     (by decide) (by decide)⟩

/-! ### Claim C2 -/

/-- Claim C2 counterexample: in the pre-simplification subgraph of `exBypass`
(focus 0, out-radius 3), node 1 has out-degree 2, yet simplification removes it:
the focus 0 reached 1 before simplification and no longer reaches it afterwards.
The restriction of the reachability relation to the focus and the nodes of
in/out-degree ≠ 1 is therefore NOT preserved. -/
theorem claim2_counterexample :
    (extractCombined exBypass 0 3 0).outDeg 1 = 2 ∧
    Reaches (extractCombined exBypass 0 3 0) 0 1 ∧
    ¬ Reaches (simplify 0 (extractCombined exBypass 0 3 0)) 0 1 := by
  refine ⟨by decide, ?_, ?_⟩
  · have h : ((0 : Nat), (1 : Nat)) ∈ (extractCombined exBypass 0 3 0).edges := by decide
    exact Relation.ReflTransGen.single h
  · intro hr
    unfold Reaches at hr
    have hE : (simplify 0 (extractCombined exBypass 0 3 0)).edges = [(0, 3)] := by decide
    rw [hE] at hr
    rcases Relation.ReflTransGen.cases_tail hr with h | ⟨m, hm, hlast⟩
    · exact absurd h (by decide)
    · simp at hlast

/-- Claim C2 amended: chain simplification preserves the reachability relation
exactly between the nodes that actually survive simplification (a node whose
in/out-degree differs from 1 in the pre-simplification subgraph is not guaranteed
to survive, since degrees can change during the scan). -/
theorem claim2_amended_simplify_preserves_reach (c : V) (g : DiGraph V)
    (hInv : Inv g) (u v : V) (hu : u ∈ (simplify c g).nodes)
    (hv : v ∈ (simplify c g).nodes) :
    Reaches (simplify c g) u v ↔ Reaches g u v :=
  (loop_spec c (g.nodes.length + 1) g hInv).2.2 u v hu hv

theorem claim2_witness :
    Inv exWeighted ∧ 0 ∈ (simplify 0 exWeighted).nodes ∧
    2 ∈ (simplify 0 exWeighted).nodes ∧
    (Reaches (simplify 0 exWeighted) 0 2 ↔ Reaches exWeighted 0 2) :=
  ⟨by decide, by decide, by decide,
   claim2_amended_simplify_preserves_reach 0 exWeighted (by decide) 0 2
     (by decide) (by decide)⟩

/-! ### Claim C3 -/

/-- Claim C3 counterexample: on the chain A→B→C→D→E with focus C(=2),
out-radius 2, in-radius 0 and chain simplification enabled, the node D(=3) is NOT
in the resulting view (it is collapsed), and the edge C→D is absent, contradicting
the claimed result {C, D, E} with edges C→D, D→E. -/
theorem claim3_counterexample :
    3 ∉ (create_ego_graph_view exChain 2 2 0 false true).nodes ∧
    (2, 3) ∉ (create_ego_graph_view exChain 2 2 0 false true).edges := by
  decide

/-- Claim C3 amended: the scenario actually produces exactly the nodes {C, E}
(2 and 4) with the single collapsed edge C→E: the degree-(1,1) node D is collapsed
as well, since the code protects only the focus node. -/
theorem claim3_amended_scenario :
    (create_ego_graph_view exChain 2 2 0 false true).nodes = [2, 4] ∧
    (create_ego_graph_view exChain 2 2 0 false true).edges = [(2, 4)] := by
  decide

/-! ### Claim C4 -/

/-- Claim C4 counterexample: in `exTriangle` with focus 0 and out-radius 1, the
edge (1,2) is in the extracted view although it lies on no shortest forward path
from the focus (both 1 and 2 are at distance 1) and on no shortest backward path
to the focus (the focus has no incoming edges). -/
theorem claim4_counterexample :
    (1, 2) ∈ (create_ego_graph_view exTriangle 0 1 0 false false).edges ∧
    ¬ onShortestFwd exTriangle 0 (1, 2) ∧
    ¬ onShortestBwd exTriangle 0 (1, 2) := by
  refine ⟨by decide, ?_, ?_⟩
  · rintro ⟨-, k, h1, h2⟩
    apply h2
    cases k with
    | zero => exact absurd (reachesLe_zero h1) (by decide)
    | succ m =>
      have hedge : ((0 : Nat), (2 : Nat)) ∈ exTriangle.edges := by decide
      exact ReachesLe.step (ReachesLe.refl m) hedge
  · rintro ⟨-, k, h1, h2⟩
    have hns : ∀ e ∈ (reverseG exTriangle).edges, e.1 ≠ 0 := by decide
    exact absurd (reachesLe_source_sink hns h1) (by decide)

/-- Claim C4 amended: every edge of the extracted subgraph has both endpoints in
the union of the forward set, the backward set and the focus, and the edges are
exactly the full-graph edges with both endpoints in the forward set or both
endpoints in the backward set (the induced union of the two ego graphs); there is
no shortest-path restriction. -/
theorem claim4_amended_edges (G : DiGraph V) (c : V) (rOut rIn : Int) :
    (∀ e ∈ (extractCombined G c rOut rIn).edges,
       (e.1 ∈ (forwardEgo G c rOut).nodes ∨ e.1 ∈ (backwardEgo G c rIn).nodes ∨
          e.1 = c) ∧
       (e.2 ∈ (forwardEgo G c rOut).nodes ∨ e.2 ∈ (backwardEgo G c rIn).nodes ∨
          e.2 = c)) ∧
    (∀ e, e ∈ (extractCombined G c rOut rIn).edges ↔
       e ∈ G.edges ∧
         ((e.1 ∈ (forwardEgo G c rOut).nodes ∧ e.2 ∈ (forwardEgo G c rOut).nodes) ∨
          (e.1 ∈ (backwardEgo G c rIn).nodes ∧ e.2 ∈ (backwardEgo G c rIn).nodes))) := by
  constructor
  · intro e he
    rcases (mem_extract_edges G c rOut rIn e).mp he with ⟨-, h | h⟩
    · exact ⟨Or.inl h.1, Or.inl h.2⟩
    · exact ⟨Or.inr (Or.inl h.1), Or.inr (Or.inl h.2)⟩
  · exact mem_extract_edges G c rOut rIn

/-! ### Claim C5 -/

/-- Claim C5 counterexample: collapsing node 1 of the weighted chain 0→1→2
(weights 5 and 7) produces the edge (0,2) with NO weight attribute: both original
weights are silently dropped. -/
theorem claim5_counterexample :
    (0, 2) ∈ (create_ego_graph_view exWeighted 0 2 0 false true).edges ∧
    (create_ego_graph_view exWeighted 0 2 0 false true).w (0, 2) = none ∧
    exWeighted.w (0, 1) = some 5 ∧ exWeighted.w (1, 2) = some 7 := by
  decide

/-- Claim C5 amended: when the collapse of a pass-through node creates a NEW edge
p→s, that edge carries no attributes at all (weight `none`): the weights of the
replaced edges p→n and n→s are dropped, not carried forward. -/
theorem claim5_amended_weight_dropped (g : DiGraph V) (c n : V)
    (hcol : collapsible g c n)
    (hnew : (g.predOf n, g.succOf n) ∉ g.edges) :
    (g.predOf n, g.succOf n) ∈ (collapseAt g n).edges ∧
    (collapseAt g n).w (g.predOf n, g.succOf n) = none := by
  obtain ⟨hne, hin, hout, hps⟩ := hcol
  obtain ⟨hpn, hsn⟩ := collapse_ne hin hout hps
  constructor
  · exact mem_collapseAt_edges.mpr ⟨Or.inl rfl, hpn, hsn⟩
  · show (g.addEdge (g.predOf n) (g.succOf n)).w (g.predOf n, g.succOf n) = none
    unfold DiGraph.addEdge
    rw [if_neg hnew]
    simp

theorem claim5_witness :
    collapsible exWeighted 0 1 ∧
    (exWeighted.predOf 1, exWeighted.succOf 1) ∉ exWeighted.edges ∧
    ((exWeighted.predOf 1, exWeighted.succOf 1) ∈ (collapseAt exWeighted 1).edges ∧
     (collapseAt exWeighted 1).w (exWeighted.predOf 1, exWeighted.succOf 1) = none) :=
  ⟨by decide, by decide,
   claim5_amended_weight_dropped exWeighted 0 1 (by decide) (by decide)⟩

/-! ### Claim C6 -/

/-- Claim C6 counterexample: on the chain 1→2→3→0 with focus 0, in-radius 3,
`hide_sources` and `simplify_chains` both enabled, the source removal of the code
(which runs BEFORE chain simplification) leaves node 2 in the view, while the
ordering asserted by the claim (removal AFTER simplification) would eliminate it. -/
theorem claim6_counterexample :
    2 ∈ (create_ego_graph_view exSourceChain 0 0 3 true true).nodes ∧
    2 ∉ (create_ego_graph_view_spec_order exSourceChain 0 0 3 true true).nodes := by
  decide

/-- Claim C6 amended: `hide_sources` removes exactly the nodes of the extracted
subgraph whose in-degree in the FULL graph is zero, except the focus, together
with their incident edges — but it runs after extraction and BEFORE chain
simplification (not after it). -/
theorem claim6_amended_hide (G : DiGraph V) (c : V) (rOut rIn : Int) (sf : Bool)
    (hc : c ∈ G.nodes) :
    create_ego_graph_view G c rOut rIn true sf =
      applySimplify sf c (hideSourcesStep G (extractCombined G c rOut rIn) c) ∧
    (∀ v, v ∈ (hideSourcesStep G (extractCombined G c rOut rIn) c).nodes ↔
      v ∈ (extractCombined G c rOut rIn).nodes ∧ (v = c ∨ G.inDeg v ≠ 0)) ∧
    (∀ e, e ∈ (hideSourcesStep G (extractCombined G c rOut rIn) c).edges ↔
      e ∈ (extractCombined G c rOut rIn).edges ∧
        (e.1 = c ∨ G.inDeg e.1 ≠ 0) ∧ (e.2 = c ∨ G.inDeg e.2 ≠ 0)) := by
  refine ⟨?_, ?_, ?_⟩
  · unfold create_ego_graph_view applyHide
    rw [if_pos hc]
    rfl
  · intro v
    exact mem_hideStep_nodes (extract_nodes_nodup G c rOut rIn)
  · intro e
    exact mem_hideStep_edges (extract_wf G c rOut rIn)

theorem claim6_witness :
    0 ∈ exSourceChain.nodes ∧
    (create_ego_graph_view exSourceChain 0 0 3 true true =
       applySimplify true 0
         (hideSourcesStep exSourceChain (extractCombined exSourceChain 0 0 3) 0) ∧
     (∀ v, v ∈ (hideSourcesStep exSourceChain
          (extractCombined exSourceChain 0 0 3) 0).nodes ↔
        v ∈ (extractCombined exSourceChain 0 0 3).nodes ∧
          (v = 0 ∨ exSourceChain.inDeg v ≠ 0)) ∧
     (∀ e, e ∈ (hideSourcesStep exSourceChain
          (extractCombined exSourceChain 0 0 3) 0).edges ↔
        e ∈ (extractCombined exSourceChain 0 0 3).edges ∧
          (e.1 = 0 ∨ exSourceChain.inDeg e.1 ≠ 0) ∧
          (e.2 = 0 ∨ exSourceChain.inDeg e.2 ≠ 0))) :=
  ⟨by decide, claim6_amended_hide exSourceChain 0 0 3 true (by decide)⟩

/-! ### Claim C7 -/

/-- Claim C7: for every finite wellformed input subgraph the chain-simplification
loop terminates: running the loop with fuel `|V| + 1` reaches a fixed point, i.e.
one further full scan performs zero collapses (the proof rests on each successful
collapse strictly reducing the node count). -/
theorem claim7_simplify_terminates (c : V) (g : DiGraph V) (hInv : Inv g) :
    (simplifyPass c (simplify c g)).2 = false := by
  unfold simplifyPass simplify
  exact loop_fixpoint c (g.nodes.length + 1) g hInv (Nat.lt_succ_self _)

theorem claim7_witness :
    Inv exBypass ∧ (simplifyPass 0 (simplify 0 exBypass)).2 = false :=
  ⟨by decide, claim7_simplify_terminates 0 exBypass (by decide)⟩

/-! ### Claim C8 -/

/-- Claim C8: when the focus node is absent from the graph, the pipeline returns
a view with zero nodes and zero edges (and, being a total function, raises no
error). -/
theorem claim8_absent_focus (G : DiGraph V) (c : V) (rOut rIn : Int)
    (hf sf : Bool) (hc : c ∉ G.nodes) :
    (create_ego_graph_view G c rOut rIn hf sf).nodes = [] ∧
    (create_ego_graph_view G c rOut rIn hf sf).edges = [] := by
  unfold create_ego_graph_view
  rw [if_neg hc]
  exact ⟨rfl, rfl⟩

theorem claim8_witness :
    9 ∉ exChain.nodes ∧
    (create_ego_graph_view exChain 9 1 1 false false).nodes = [] ∧
    (create_ego_graph_view exChain 9 1 1 false false).edges = [] :=
  ⟨by decide, claim8_absent_focus exChain 9 1 1 false false (by decide)⟩

/-! ### Claim C9 -/

/-- Claim C9 counterexample: calling the pipeline with negative radii is NOT
rejected: it computes and returns the ordinary focus-only subgraph. -/
theorem claim9_counterexample :
    (create_ego_graph_view exSmall 0 (-1) (-1) false false).nodes = [0] ∧
    (create_ego_graph_view exSmall 0 (-1) (-1) false false).edges = [] := by
  decide

/-- Claim C9 amended: negative radii are not rejected and no validation is
performed; any non-positive radius behaves exactly like radius 0 (no exploration
in that direction) and the pipeline proceeds normally. -/
theorem claim9_amended_clamp (G : DiGraph V) (c : V) (rOut rIn : Int)
    (hf sf : Bool) :
    create_ego_graph_view G c rOut rIn hf sf =
      create_ego_graph_view G c (max rOut 0) (max rIn 0) hf sf := by
  unfold create_ego_graph_view
  rw [extract_clamp G c rOut rIn]

/-! ### Claim C10 -/

/-- The number of occurrences of the directed edge `e` in the edge list of `g`. -/
def edgeMultiplicity (g : DiGraph V) (e : V × V) : Nat :=
  (g.edges.filter (fun x => decide (x = e))).length

lemma multiplicity_le_one_of_nodup {α : Type} [DecidableEq α] {l : List α}
    (h : l.Nodup) (e : α) :
    (l.filter (fun x => decide (x = e))).length ≤ 1 := by
  induction l with
  | nil => simp
  | cons a l ih =>
    rcases List.nodup_cons.mp h with ⟨ha, hl⟩
    by_cases hae : a = e
    · subst hae
      have hnil : l.filter (fun x => decide (x = a)) = [] := by
        refine List.filter_eq_nil.mpr ?_
        intro x hx
        simp only [decide_eq_true_eq]
        rintro rfl
        exact ha hx
      simp [List.filter_cons, hnil]
    · have hstep : (a :: l).filter (fun x => decide (x = e)) =
          l.filter (fun x => decide (x = e)) := by
        simp [List.filter_cons, hae]
      rw [hstep]
      exact ih hl

/-- Claim C10: for every wellformed full graph the view graph is a simple directed
graph: every ordered pair of nodes carries at most one edge, including after chain
simplification (a collapse whose replacement edge already exists merges with it
rather than creating a parallel edge). -/
theorem claim10_view_simple (G : DiGraph V) (c : V) (rOut rIn : Int)
    (hf sf : Bool) (hG : Inv G) :
    ∀ e, edgeMultiplicity (create_ego_graph_view G c rOut rIn hf sf) e ≤ 1 := by
  intro e
  exact multiplicity_le_one_of_nodup (view_inv hG c rOut rIn hf sf).2.1 e

theorem claim10_witness :
    Inv exBypass ∧
    (∀ e, edgeMultiplicity (create_ego_graph_view exBypass 0 3 0 false true) e ≤ 1) :=
  ⟨by decide, claim10_view_simple exBypass 0 3 0 false true (by decide)⟩

end ShowGraph
